import Mathlib

/-!
Shallow embedding of `src/freckles/separation/sampling.py` (the freckles
parameter-estimation engine) and proofs about its specified behaviour.

Machine floats are idealised as rationals (`ℚ`).  External numerical
primitives (scipy's minimizer, emcee's ensemble sampler, numdifftools'
differentiators) are modelled by their result records or by oracle
functions, with contract hypotheses where the relevant claim depends on
their shape; all harness logic around them (sign flips, the dp loop,
walker-history slicing, the convergence loop) is translated directly from
the source.
-/

/-- One step of the dp-filling loop body of `run_emcee`
(`sampling.py` lines 130-134): `dp[i] = 1e-2` when `d is None` or
`d <= 0`, else `dp[i] = d * 0.1`. -/
def dpEntry (d : Option ℚ) : ℚ :=
  match d with
  | none => 1/100
  | some v => if v ≤ 0 then 1/100 else v * (1/10)

/-- The dp-filling loop of `run_emcee` (`sampling.py` lines 129-134):
`dp = np.zeros(ndim)` followed by `for i, d in enumerate(dpos)` writing
`dp[i]`.  Writing `dp[i]` with `i ≥ ndim` (hints longer than `pos0`)
raises a numpy `IndexError`, modelled as `Except.error`; entries of `dp`
beyond `len(dpos)` (hints shorter than `pos0`) keep their zero
initialisation. -/
def setDp (ndim : Nat) (hints : List (Option ℚ)) : Except String (List ℚ) :=
  if ndim < hints.length then
    Except.error "index out of bounds"
  else
    Except.ok ((List.range ndim).map (fun i =>
      match hints[i]? with
      | some d => dpEntry d
      | none => 0))

/-- The full dp derivation of `run_emcee` (`sampling.py` lines 127-134),
including the `dpos is None` default `dpos = 1e-2 * np.ones(ndim)`. -/
def dpVec (ndim : Nat) (dpos : Option (List (Option ℚ))) : Except String (List ℚ) :=
  match dpos with
  | none => setDp ndim (List.replicate ndim (some (1/100)))
  | some hints => setDp ndim hints

/-- The value `res.x` returned by the external scipy minimizer: either a
bare scalar (as Powell may produce on a 1-dimensional problem) or a
parameter vector.  This is the shape `run_minimize` inspects with
`isinstance(res.x, Iterable)`. -/
inductive MinX where
  | scalar (v : ℚ)
  | vec (xs : List ℚ)

/-- Result record of the external `scipy.optimize.minimize` call:
`res.x`, `res.success`, `res.nfev`. -/
structure ScipyResult where
  x : MinX
  success : Bool
  nfev : Nat

/-- The dictionary returned by `run_minimize`
(`sampling.py` line 49). -/
structure MLResult where
  params_ML : List ℚ
  ML_success : Bool
  ML_nev : Nat

/-- Result normalisation of `run_minimize` (`sampling.py` lines 43-49):
a non-iterable `res.x` is wrapped as `[res.x]`, an iterable one is kept;
`success` and `nfev` are copied through.  The scipy call itself is the
external black box, abstracted as its result record `res`. -/
def run_minimize (res : ScipyResult) : MLResult :=
  { params_ML :=
      match res.x with
      | MinX.scalar v => [v]
      | MinX.vec xs => xs
    ML_success := res.success
    ML_nev := res.nfev }

/-- Perturb coordinate `i` of `x` by `h` (the elementary step used by
central finite differences). -/
def bump (x : List ℚ) (i : Nat) (h : ℚ) : List ℚ :=
  x.mapIdx fun j v => if j = i then v + h else v

/-- The external `numdifftools.Gradient` primitive, modelled as central
finite differences with step `h` in each coordinate. -/
def gradFD (h : ℚ) (f : List ℚ → ℚ) (x : List ℚ) : List ℚ :=
  (List.range x.length).map fun i =>
    (f (bump x i h) - f (bump x i (-h))) / (2 * h)

/-- The external `numdifftools.Hessian` primitive, modelled as
second-order central finite differences with step `h`. -/
def hessFD (h : ℚ) (f : List ℚ → ℚ) (x : List ℚ) : List (List ℚ) :=
  (List.range x.length).map fun i => (List.range x.length).map fun j =>
    (f (bump (bump x i h) j h) - f (bump (bump x i h) j (-h))
      - f (bump (bump x i (-h)) j h) + f (bump (bump x i (-h)) j (-h)))
      / (4 * h * h)

/-- The dictionary returned by `run_fisher` (`sampling.py` line 94). -/
structure FisherResult where
  params_cent : List ℚ
  fisher_m : List (List ℚ)
  fisher_v : List ℚ
  ML_success : Option Bool

/-- `run_fisher` (`sampling.py` lines 51-94): builds `mfunc = -func`,
optionally finds the maximum likelihood first (the external scipy
minimizer abstracted as its output `mlx`, `mlsucc`), then stores
`fisher_v = -Gradient(mfunc)(pcent)` and `fisher_m = Hessian(mfunc)(pcent)`,
with the numerical differentiators modelled by `gradFD`/`hessFD`. -/
def run_fisher (f : List ℚ → ℚ) (pos0 : List ℚ) (ml_first : Bool)
    (mlx : List ℚ) (mlsucc : Bool) (h : ℚ) : FisherResult :=
  { params_cent := if ml_first then mlx else pos0
    fisher_m := hessFD h (fun p => -(f p)) (if ml_first then mlx else pos0)
    fisher_v :=
      (gradFD h (fun p => -(f p)) (if ml_first then mlx else pos0)).map
        (fun v => -v)
    ML_success := if ml_first then some mlsucc else none }

/-- `np.mean` of a rational list. -/
def meanQ (xs : List ℚ) : ℚ := xs.sum / (xs.length : ℚ)

/-- The convergence test of `run_emcee` (`sampling.py` lines 156-157):
`np.all(tau * conv_F < sampler.iteration)` conjoined with
`np.all(np.abs(old_tau - tau) / tau < conv_perc)`.  `old_tau` starts as
the scalar `np.inf` (modelled by `none`): every elementwise comparison
against the infinite baseline is false there (the external sampler's
autocorrelation estimates are nonnegative reals), so `np.all` holds only
for an empty `tau`. -/
def convergedCheck (tau : List ℚ) (old : Option (List ℚ))
    (convF convPerc : ℚ) (iter : Nat) : Bool :=
  (tau.all fun t => decide (t * convF < (iter : ℚ))) &&
  (match old with
   | none => tau.all fun _ => false
   | some o => (o.zip tau).all fun p => decide (|p.1 - p.2| / p.2 < convPerc))

/-- Loop state of `run_emcee`'s sampling loop: the sampler's iteration
counter, the `old_tau` baseline (`none` is the initial `np.inf`), and the
`autocorr` trace of `(iteration, np.mean(tau))` records. -/
structure EmceeState where
  iteration : Nat
  old_tau : Option (List ℚ)
  autocorr : List (Nat × ℚ)

/-- The sampling loop of `run_emcee` (`sampling.py` lines 145-160):
each pass advances the sampler one iteration; on iterations that are not
multiples of 100 it `continue`s; otherwise it estimates the
autocorrelation times (the external `sampler.get_autocorr_time(tol=0)`,
abstracted as the oracle `tauOf`), appends to the trace, `break`s if
`convergedCheck` holds, and otherwise records `old_tau = tau`.  `rem` is
the remaining iteration budget. -/
def emceeLoop (tauOf : Nat → List ℚ) (convF convPerc : ℚ) :
    Nat → EmceeState → EmceeState
  | 0, st => st
  | rem + 1, st =>
    if (st.iteration + 1) % 100 ≠ 0 then
      emceeLoop tauOf convF convPerc rem
        ⟨st.iteration + 1, st.old_tau, st.autocorr⟩
    else if convergedCheck (tauOf (st.iteration + 1)) st.old_tau convF convPerc
        (st.iteration + 1) then
      ⟨st.iteration + 1, st.old_tau,
        st.autocorr ++ [(st.iteration + 1, meanQ (tauOf (st.iteration + 1)))]⟩
    else
      emceeLoop tauOf convF convPerc rem
        ⟨st.iteration + 1, some (tauOf (st.iteration + 1)),
          st.autocorr ++ [(st.iteration + 1, meanQ (tauOf (st.iteration + 1)))]⟩

/-- `run_emcee`'s loop run from a fresh sampler (`sampling.py` lines
142-160): iteration counter 0, `old_tau = np.inf`, empty trace, budget
`nsamps`. -/
def run_emcee_iters (tauOf : Nat → List ℚ) (nsamps : Nat)
    (convF convPerc : ℚ) : EmceeState :=
  emceeLoop tauOf convF convPerc nsamps ⟨0, none, []⟩

/-- The iterations in the interval `(a, b]` whose counter is a multiple
of 100 — exactly the iterations at which `run_emcee`'s loop reaches its
convergence-check block. -/
def checksIn (a b : Nat) : List Nat :=
  (List.range' (a + 1) (b - a)).filter fun m => decide (m % 100 = 0)

/-- The output slicing of `run_emcee` (`sampling.py` line 162):
`sampler.chain[:, nburn:, :].reshape((-1, ndim))` — drop the first
`nburn` iterations of every walker's history, then flatten walker-major
into a list of rows. -/
def flattenChain (chain : List (List (List ℚ))) (nburn : Nat) :
    List (List ℚ) :=
  (chain.map fun w => w.drop nburn).flatten

lemma flattenChain_cons (w : List (List ℚ)) (ws : List (List (List ℚ)))
    (nburn : Nat) :
    flattenChain (w :: ws) nburn = w.drop nburn ++ flattenChain ws nburn := rfl

lemma setDp_eq_map (ndim : Nat) (hints : List (Option ℚ))
    (hlen : hints.length = ndim) :
    setDp ndim hints = Except.ok (hints.map dpEntry) := by
  unfold setDp
  rw [if_neg (by omega)]
  refine congrArg Except.ok (List.ext_getElem ?_ ?_)
  · simp [hlen]
  · intro i h1 h2
    simp only [List.getElem_map, List.getElem_range]
    rw [List.getElem?_eq_getElem (by simpa [hlen] using h2)]

/-- Claim C1 (amended): the per-entry rule is `dp[i] = 1/100` when the
hint is absent or non-positive and `dp[i] = hint * 1/10` otherwise, but
when the `dpos` argument is entirely absent every `dp[i]` is `1/1000`
(the default hint `1e-2` is itself scaled by `0.1`), not `1/100`. -/
theorem dp_rule (ndim : Nat) (hints : List (Option ℚ))
    (hlen : hints.length = ndim) :
    dpVec ndim none = Except.ok (List.replicate ndim (1/1000)) ∧
    dpVec ndim (some hints) = Except.ok (hints.map dpEntry) := by
  constructor
  · show setDp ndim (List.replicate ndim (some (1/100))) = _
    rw [setDp_eq_map ndim _ (List.length_replicate ndim _), List.map_replicate]
    have : dpEntry (some (1/100)) = 1/1000 := by
      simp only [dpEntry]
      rw [if_neg (by norm_num)]
      norm_num
    rw [this]
  · exact setDp_eq_map ndim hints hlen

/-- Claim C1 witness at `ndim = 1`, `hints = [none]`. -/
theorem dp_rule_witness :
    dpVec 1 none = Except.ok [1/1000] ∧
    dpVec 1 (some [none]) = Except.ok [1/100] :=
  dp_rule 1 [none] rfl

/-- Claim C1 counterexample: with `dpos` entirely absent and `ndim = 1`,
the derived dispersion is not `[0.01]` (it is `[0.001]`). -/
theorem dp_absent_default_cex :
    ¬ (dpVec 1 none = Except.ok [1/100]) := by
  norm_num [dpVec, setDp, dpEntry, List.range_succ, List.replicate]

/-- Claim C2 (amended): a dimensionality mismatch between
`initial_params` and `uncertainty_hints` is not reported with a
descriptive fatal error.  When the hints are longer than the parameter
vector the dp loop dies with a bare index-out-of-bounds error; when they
are shorter it silently pads: the run proceeds with the missing trailing
dispersions left at their zero initialisation. -/
theorem dp_mismatch_behavior (ndim : Nat) (hints : List (Option ℚ)) :
    (ndim < hints.length →
      dpVec ndim (some hints) = Except.error "index out of bounds") ∧
    (hints.length ≤ ndim →
      ∃ dp, dpVec ndim (some hints) = Except.ok dp ∧ dp.length = ndim ∧
        ∀ i, hints.length ≤ i → i < ndim → dp[i]? = some 0) := by
  constructor
  · intro hlong
    show setDp ndim hints = _
    unfold setDp
    rw [if_pos hlong]
  · intro hshort
    refine ⟨(List.range ndim).map (fun i =>
      match hints[i]? with
      | some d => dpEntry d
      | none => 0), ?_, by simp, ?_⟩
    · show setDp ndim hints = _
      unfold setDp
      rw [if_neg (by omega)]
    · intro i hi hilt
      rw [List.getElem?_map, List.getElem?_range hilt]
      simp [List.getElem?_eq_none hi]

/-- Claim C2 witness: hints longer than the parameter vector give the
index error; hints shorter give `ok` with the missing dispersion 0. -/
theorem dp_mismatch_behavior_witness :
    dpVec 2 (some [some 1, some 1, some 1]) =
      Except.error "index out of bounds" ∧
    ∃ dp, dpVec 2 (some [some 1]) = Except.ok dp ∧ dp.length = 2 ∧
      ∀ i, 1 ≤ i → i < 2 → dp[i]? = some 0 :=
  ⟨(dp_mismatch_behavior 2 [some 1, some 1, some 1]).1 (by norm_num),
   (dp_mismatch_behavior 2 [some 1]).2 (by norm_num)⟩

/-- Claim C2 counterexample: with `initial_params` of length 2 and
`uncertainty_hints = [1.0]` (lengths differ), `run_emcee`'s dp
derivation raises no error at all: it returns `[0.1, 0]`, silently
padding the missing dispersion with zero. -/
theorem dp_mismatch_cex :
    dpVec 2 (some [some 1]) = Except.ok [1/10, 0] := by
  norm_num [dpVec, setDp, dpEntry, List.range_succ]

/-- Claim C3: under the external minimizer's contract (a scalar `res.x`
only arises for a 1-dimensional problem, a vector `res.x` has length
`ndim`), `run_minimize` returns a `params_ML` sequence of length exactly
`ndim`, the scalar case being wrapped into a one-element list. -/
theorem minimize_params_length (ndim : Nat) (res : ScipyResult)
    (hs : ∀ v, res.x = MinX.scalar v → ndim = 1)
    (hv : ∀ xs, res.x = MinX.vec xs → xs.length = ndim) :
    (run_minimize res).params_ML.length = ndim := by
  cases hx : res.x with
  | scalar v =>
    have h1 : ndim = 1 := hs v hx
    simp [run_minimize, hx, h1]
  | vec xs =>
    simp [run_minimize, hx, hv xs hx]

/-- Claim C3 witness: a scalar minimizer output on a 1-dimensional
problem yields a parameter sequence of length 1. -/
theorem minimize_params_length_witness :
    (run_minimize ⟨MinX.scalar 5, true, 10⟩).params_ML.length = 1 :=
  minimize_params_length 1 ⟨MinX.scalar 5, true, 10⟩
    (fun _ _ => rfl) (fun _ h => nomatch h)

/-- Claim C7: with `ml_first = False`, `run_fisher` returns
`ML_success = None` and uses `pos0` verbatim as the center; with
`ml_first = True` the center is the minimizer's output and `ML_success`
its success flag. -/
theorem fisher_center_mlsuccess (f : List ℚ → ℚ) (pos0 mlx : List ℚ)
    (mlsucc : Bool) (h : ℚ) :
    (run_fisher f pos0 false mlx mlsucc h).ML_success = none ∧
    (run_fisher f pos0 false mlx mlsucc h).params_cent = pos0 ∧
    (run_fisher f pos0 true mlx mlsucc h).ML_success = some mlsucc ∧
    (run_fisher f pos0 true mlx mlsucc h).params_cent = mlx :=
  ⟨rfl, rfl, rfl, rfl⟩

lemma gradFD_neg (h : ℚ) (f : List ℚ → ℚ) (x : List ℚ) :
    gradFD h (fun p => -(f p)) x = (gradFD h f x).map fun v => -v := by
  simp only [gradFD, List.map_map]
  refine List.map_congr_left fun i _ => ?_
  simp only [Function.comp_apply]
  ring

/-- Claim C8: the stored `fisher_v` is the negation of the gradient of
the negated log-likelihood at the center, i.e. it equals the gradient of
the original log-likelihood there (the double negation cancels), and
`fisher_m` is the Hessian of the negated log-likelihood at the same
center. -/
theorem fisher_gradient_double_neg (f : List ℚ → ℚ) (pos0 mlx : List ℚ)
    (mf mlsucc : Bool) (h : ℚ) :
    (run_fisher f pos0 mf mlx mlsucc h).fisher_v =
      gradFD h f (run_fisher f pos0 mf mlx mlsucc h).params_cent ∧
    (run_fisher f pos0 mf mlx mlsucc h).fisher_m =
      hessFD h (fun p => -(f p))
        (run_fisher f pos0 mf mlx mlsucc h).params_cent := by
  refine ⟨?_, rfl⟩
  show (gradFD h (fun p => -(f p)) _).map _ = _
  rw [gradFD_neg, List.map_map]
  have hid : ((fun v : ℚ => -v) ∘ fun v : ℚ => -v) = id :=
    funext fun v => neg_neg v
  rw [hid, List.map_id]
  rfl

lemma flattenChain_length (chain : List (List (List ℚ))) (k nburn : Nat)
    (hk : ∀ w ∈ chain, w.length = k) :
    (flattenChain chain nburn).length = chain.length * (k - nburn) := by
  induction chain with
  | nil => simp [flattenChain]
  | cons w ws ih =>
    rw [flattenChain_cons, List.length_append, List.length_drop,
      hk w (List.mem_cons_self w ws),
      ih (fun x hx => hk x (List.mem_cons_of_mem _ hx)), List.length_cons]
    ring

lemma flattenChain_mem (chain : List (List (List ℚ))) (nburn : Nat)
    (row : List ℚ) (h : row ∈ flattenChain chain nburn) :
    ∃ w ∈ chain, row ∈ w := by
  simp only [flattenChain, List.mem_flatten, List.mem_map] at h
  obtain ⟨l, ⟨w, hw, rfl⟩, hrow⟩ := h
  exact ⟨w, hw, List.mem_of_mem_drop hrow⟩

/-- Claim C4: when `k` iterations were run with `k > n_burn`, the
returned sample pool is the per-walker histories with the first `n_burn`
iterations discarded and flattened: it has `n_walkers * (k - n_burn)`
rows, each of width `ndim`. -/
theorem emcee_burn_flatten (chain : List (List (List ℚ)))
    (nwalkers k nburn ndim : Nat)
    (hw : chain.length = nwalkers)
    (hk : ∀ w ∈ chain, w.length = k)
    (hd : ∀ w ∈ chain, ∀ row ∈ w, row.length = ndim)
    (_hbk : nburn < k) :
    (flattenChain chain nburn).length = nwalkers * (k - nburn) ∧
    ∀ row ∈ flattenChain chain nburn, row.length = ndim := by
  subst hw
  refine ⟨flattenChain_length chain k nburn hk, ?_⟩
  intro row hrow
  obtain ⟨w, hw2, hrw⟩ := flattenChain_mem chain nburn row hrow
  exact hd w hw2 row hrw

/-- Claim C4 witness: two walkers, two iterations each, one burn-in
iteration dropped. -/
theorem emcee_burn_flatten_witness :
    (flattenChain [[[(1 : ℚ)], [2]], [[3], [4]]] 1).length = 2 * (2 - 1) ∧
    ∀ row ∈ flattenChain [[[(1 : ℚ)], [2]], [[3], [4]]] 1, row.length = 1 :=
  emcee_burn_flatten [[[(1 : ℚ)], [2]], [[3], [4]]] 2 2 1 1 rfl
    (by decide) (by decide) (by decide)

/-- Claim C10: when `k` iterations were run with `k ≤ n_burn`, the
burn-in slice clamps instead of failing: the returned pool is empty. -/
theorem emcee_burn_clamp (chain : List (List (List ℚ))) (k nburn : Nat)
    (hk : ∀ w ∈ chain, w.length = k) (hkb : k ≤ nburn) :
    flattenChain chain nburn = [] := by
  induction chain with
  | nil => rfl
  | cons w ws ih =>
    rw [flattenChain_cons,
      List.drop_eq_nil_of_le
        (by rw [hk w (List.mem_cons_self w ws)]; exact hkb),
      List.nil_append]
    exact ih (fun x hx => hk x (List.mem_cons_of_mem _ hx))

/-- Claim C10 witness: one walker, one iteration, `n_burn = 1`. -/
theorem emcee_burn_clamp_witness :
    flattenChain [[[(1 : ℚ)]]] 1 = [] :=
  emcee_burn_clamp [[[(1 : ℚ)]]] 1 1 (by decide) (by decide)

lemma emceeLoop_iter_ge (tauOf : Nat → List ℚ) (convF convPerc : ℚ) :
    ∀ (rem : Nat) (st : EmceeState),
      st.iteration ≤ (emceeLoop tauOf convF convPerc rem st).iteration := by
  intro rem
  induction rem with
  | zero => intro st; exact Nat.le_refl _
  | succ rem ih =>
    intro st
    rw [emceeLoop]
    by_cases hmod : (st.iteration + 1) % 100 ≠ 0
    · rw [if_pos hmod]
      exact Nat.le_trans (Nat.le_succ _)
        (ih ⟨st.iteration + 1, st.old_tau, st.autocorr⟩)
    · rw [if_neg hmod]
      by_cases hconv : convergedCheck (tauOf (st.iteration + 1)) st.old_tau
          convF convPerc (st.iteration + 1) = true
      · rw [if_pos hconv]
        exact Nat.le_succ _
      · rw [if_neg hconv]
        exact Nat.le_trans (Nat.le_succ _)
          (ih ⟨st.iteration + 1, some (tauOf (st.iteration + 1)),
            st.autocorr ++
              [(st.iteration + 1, meanQ (tauOf (st.iteration + 1)))]⟩)

lemma checksIn_self (a : Nat) : checksIn a a = [] := by
  simp [checksIn]

lemma checksIn_succ_left (a b : Nat) (hab : a < b) :
    checksIn a b =
      (if (a + 1) % 100 = 0 then [a + 1] else []) ++ checksIn (a + 1) b := by
  unfold checksIn
  have hba : b - a = (b - (a + 1)) + 1 := by omega
  rw [hba, List.range'_succ, List.filter_cons]
  by_cases h : (a + 1) % 100 = 0
  · simp [h]
  · simp [h]

lemma emceeLoop_autocorr (tauOf : Nat → List ℚ) (convF convPerc : ℚ) :
    ∀ (rem : Nat) (st : EmceeState),
      (emceeLoop tauOf convF convPerc rem st).autocorr =
        st.autocorr ++
          (checksIn st.iteration
            (emceeLoop tauOf convF convPerc rem st).iteration).map
            (fun m => (m, meanQ (tauOf m))) := by
  intro rem
  induction rem with
  | zero =>
    intro st
    simp [emceeLoop, checksIn_self]
  | succ rem ih =>
    intro st
    rw [emceeLoop]
    by_cases hmod : (st.iteration + 1) % 100 ≠ 0
    · rw [if_pos hmod]
      have hge := emceeLoop_iter_ge tauOf convF convPerc rem
        ⟨st.iteration + 1, st.old_tau, st.autocorr⟩
      rw [ih ⟨st.iteration + 1, st.old_tau, st.autocorr⟩,
        checksIn_succ_left st.iteration _
          (Nat.lt_of_lt_of_le (Nat.lt_succ_self _) hge),
        if_neg hmod, List.nil_append]
    · by_cases hconv : convergedCheck (tauOf (st.iteration + 1)) st.old_tau
          convF convPerc (st.iteration + 1) = true
      · rw [if_neg hmod, if_pos hconv]
        have hm0 : (st.iteration + 1) % 100 = 0 := by omega
        rw [checksIn_succ_left _ _ (Nat.lt_succ_self _), if_pos hm0,
          checksIn_self]
        simp
      · rw [if_neg hmod, if_neg hconv]
        have hge := emceeLoop_iter_ge tauOf convF convPerc rem
          ⟨st.iteration + 1, some (tauOf (st.iteration + 1)),
            st.autocorr ++
              [(st.iteration + 1, meanQ (tauOf (st.iteration + 1)))]⟩
        have hm0 : (st.iteration + 1) % 100 = 0 := by omega
        rw [ih ⟨st.iteration + 1, some (tauOf (st.iteration + 1)),
            st.autocorr ++
              [(st.iteration + 1, meanQ (tauOf (st.iteration + 1)))]⟩,
          checksIn_succ_left st.iteration _
            (Nat.lt_of_lt_of_le (Nat.lt_succ_self _) hge),
          if_pos hm0]
        simp

/-- Claim C6: a convergence check happens at an iteration exactly when
the iteration counter is a multiple of 100: the autocorrelation trace of
a run equals one record per multiple of 100 up to the number of
iterations actually run, so an iteration index appears in the trace iff
it is a positive multiple of 100 reached within the run. -/
theorem emcee_check_cadence (tauOf : Nat → List ℚ) (nsamps : Nat)
    (convF convPerc : ℚ) :
    (run_emcee_iters tauOf nsamps convF convPerc).autocorr =
      (checksIn 0 (run_emcee_iters tauOf nsamps convF convPerc).iteration).map
        (fun m => (m, meanQ (tauOf m))) ∧
    ∀ m : Nat,
      m ∈ ((run_emcee_iters tauOf nsamps convF convPerc).autocorr.map
          Prod.fst) ↔
        (m % 100 = 0 ∧ 0 < m ∧
          m ≤ (run_emcee_iters tauOf nsamps convF convPerc).iteration) := by
  have h1 : (run_emcee_iters tauOf nsamps convF convPerc).autocorr =
      (checksIn 0 (run_emcee_iters tauOf nsamps convF convPerc).iteration).map
        (fun m => (m, meanQ (tauOf m))) := by
    have h := emceeLoop_autocorr tauOf convF convPerc nsamps ⟨0, none, []⟩
    simpa [run_emcee_iters] using h
  refine ⟨h1, fun m => ?_⟩
  rw [h1, List.map_map]
  have hid : (Prod.fst ∘ fun m : Nat => (m, meanQ (tauOf m))) = id :=
    funext fun _ => rfl
  rw [hid, List.map_id]
  unfold checksIn
  rw [List.mem_filter, List.mem_range'_1]
  simp only [decide_eq_true_eq, Nat.sub_zero]
  omega

lemma emceeLoop_check_step (tauOf : Nat → List ℚ) (convF convPerc : ℚ)
    (rem : Nat) (st : EmceeState)
    (hmod : (st.iteration + 1) % 100 = 0) :
    emceeLoop tauOf convF convPerc (rem + 1) st =
      if convergedCheck (tauOf (st.iteration + 1)) st.old_tau convF convPerc
          (st.iteration + 1) then
        ⟨st.iteration + 1, st.old_tau,
          st.autocorr ++
            [(st.iteration + 1, meanQ (tauOf (st.iteration + 1)))]⟩
      else
        emceeLoop tauOf convF convPerc rem
          ⟨st.iteration + 1, some (tauOf (st.iteration + 1)),
            st.autocorr ++
              [(st.iteration + 1, meanQ (tauOf (st.iteration + 1)))]⟩ := by
  rw [emceeLoop, if_neg (fun hne => hne hmod)]

/-- Claim C5: at a convergence check with a previous baseline `o`,
convergence is declared exactly when both hold — every dimension's
autocorrelation time times `conv_F` is strictly less than the current
iteration count, and every dimension's relative change
`|old - tau| / tau` is below `conv_perc` — and when the check at
iteration `st.iteration + 1` declares convergence the loop stops
immediately with that iteration count, using only one step of its
remaining budget `rem + 1`. -/
theorem emcee_convergence_decl (tau o : List ℚ) (convF convPerc : ℚ)
    (iter : Nat) (tauOf : Nat → List ℚ) (rem : Nat) (st : EmceeState)
    (hmod : (st.iteration + 1) % 100 = 0)
    (hconv : convergedCheck (tauOf (st.iteration + 1)) st.old_tau convF
      convPerc (st.iteration + 1) = true) :
    (convergedCheck tau (some o) convF convPerc iter = true ↔
      ((∀ t ∈ tau, t * convF < (iter : ℚ)) ∧
        ∀ p ∈ o.zip tau, |p.1 - p.2| / p.2 < convPerc)) ∧
    (emceeLoop tauOf convF convPerc (rem + 1) st).iteration =
      st.iteration + 1 := by
  constructor
  · simp [convergedCheck, List.all_eq_true]
  · rw [emceeLoop, if_neg (fun hne => hne hmod), if_pos hconv]

/-- Claim C5 witness: with baseline `[1]`, `tau = [1]`, factors 1, a
check at iteration 100 declares convergence and the loop stops there. -/
theorem emcee_convergence_decl_witness :
    (convergedCheck [1] (some [1]) 1 1 100 = true ↔
      ((∀ t ∈ [(1 : ℚ)], t * 1 < ((100 : Nat) : ℚ)) ∧
        ∀ p ∈ [(1 : ℚ)].zip [(1 : ℚ)], |p.1 - p.2| / p.2 < 1)) ∧
    (emceeLoop (fun _ => [1]) 1 1 (0 + 1) ⟨99, some [1], []⟩).iteration =
      99 + 1 :=
  emcee_convergence_decl [1] [1] 1 1 100 (fun _ => [1]) 0 ⟨99, some [1], []⟩
    (by norm_num) (by norm_num [convergedCheck])

lemma emceeLoop_skip (tauOf : Nat → List ℚ) (convF convPerc : ℚ) :
    ∀ (j rem : Nat) (st : EmceeState), j ≤ rem →
      (∀ i, st.iteration < i → i ≤ st.iteration + j → i % 100 ≠ 0) →
      emceeLoop tauOf convF convPerc rem st =
        emceeLoop tauOf convF convPerc (rem - j)
          ⟨st.iteration + j, st.old_tau, st.autocorr⟩ := by
  intro j
  induction j with
  | zero => intro rem st _ _; rfl
  | succ j ih =>
    intro rem st hj hskip
    obtain ⟨rem', rfl⟩ : ∃ rem', rem = rem' + 1 := ⟨rem - 1, by omega⟩
    rw [emceeLoop,
      if_pos (hskip (st.iteration + 1) (Nat.lt_succ_self _) (by omega))]
    have hsk : ∀ i, st.iteration + 1 < i → i ≤ st.iteration + 1 + j →
        i % 100 ≠ 0 :=
      fun i h1 h2 => hskip i (by omega) (by omega)
    rw [ih rem' ⟨st.iteration + 1, st.old_tau, st.autocorr⟩ (by omega) hsk]
    have h1 : rem' - j = rem' + 1 - (j + 1) := by omega
    have h2 : st.iteration + 1 + j = st.iteration + (j + 1) := by omega
    rw [h1, h2]

lemma convergedCheck_none_false (tau : List ℚ) (convF convPerc : ℚ)
    (iter : Nat) (h : tau ≠ []) :
    convergedCheck tau none convF convPerc iter = false := by
  unfold convergedCheck
  cases tau with
  | nil => exact absurd rfl h
  | cons t ts => simp

/-- Claim C9: `old_tau` starts as the scalar infinity, so the
relative-change condition fails at the first convergence check
(iteration 100) and no early stop can occur there; consequently whenever
`n_samples ≥ 200`, at least 200 iterations are always run before any
early termination. -/
theorem emcee_min_200_iters (tauOf : Nat → List ℚ) (ndim nsamps : Nat)
    (convF convPerc : ℚ) (hnd : 1 ≤ ndim)
    (hlen : ∀ n, (tauOf n).length = ndim) (hns : 200 ≤ nsamps) :
    convergedCheck (tauOf 100) none convF convPerc 100 = false ∧
    200 ≤ (run_emcee_iters tauOf nsamps convF convPerc).iteration := by
  have htau : tauOf 100 ≠ [] := by
    intro h
    have hl := hlen 100
    rw [h] at hl
    simp at hl
    omega
  have hcc := convergedCheck_none_false (tauOf 100) convF convPerc 100 htau
  refine ⟨hcc, ?_⟩
  obtain ⟨m, rfl⟩ : ∃ m, nsamps = m + 200 := ⟨nsamps - 200, by omega⟩
  unfold run_emcee_iters
  have hsk1 : ∀ i, 0 < i → i ≤ 0 + 99 → i % 100 ≠ 0 :=
    fun i h1 h2 => by omega
  rw [emceeLoop_skip tauOf convF convPerc 99 (m + 200) ⟨0, none, []⟩
    (by omega) hsk1]
  rw [show m + 200 - 99 = (m + 100) + 1 from by omega, Nat.zero_add]
  rw [emceeLoop_check_step tauOf convF convPerc (m + 100) ⟨99, none, []⟩
    (show (99 + 1) % 100 = 0 from by norm_num)]
  show 200 ≤ (if convergedCheck (tauOf 100) none convF convPerc 100 = true
    then (⟨100, none, [(100, meanQ (tauOf 100))]⟩ : EmceeState)
    else emceeLoop tauOf convF convPerc (m + 100)
      ⟨100, some (tauOf 100), [(100, meanQ (tauOf 100))]⟩).iteration
  rw [hcc, if_neg Bool.false_ne_true]
  have hsk2 : ∀ i, 100 < i → i ≤ 100 + 99 → i % 100 ≠ 0 :=
    fun i h1 h2 => by omega
  rw [emceeLoop_skip tauOf convF convPerc 99 (m + 100)
    ⟨100, some (tauOf 100), [(100, meanQ (tauOf 100))]⟩ (by omega) hsk2]
  rw [show m + 100 - 99 = m + 1 from by omega,
    show (100 : Nat) + 99 = 199 from by norm_num]
  rw [emceeLoop_check_step tauOf convF convPerc m
    ⟨199, some (tauOf 100), [(100, meanQ (tauOf 100))]⟩
    (show (199 + 1) % 100 = 0 from by norm_num)]
  split
  · exact Nat.le_refl 200
  · exact emceeLoop_iter_ge tauOf convF convPerc m
      ⟨200, some (tauOf 200),
        [(100, meanQ (tauOf 100)), (200, meanQ (tauOf 200))]⟩

/-- Claim C9 witness at `ndim = 1`, constant autocorrelation oracle,
`n_samples = 200`. -/
theorem emcee_min_200_iters_witness :
    convergedCheck ((fun _ : Nat => [(1 : ℚ)]) 100) none 1 1 100 = false ∧
    200 ≤ (run_emcee_iters (fun _ => [(1 : ℚ)]) 200 1 1).iteration :=
  emcee_min_200_iters (fun _ => [(1 : ℚ)]) 1 200 1 1 (Nat.le_refl 1)
    (fun _ => rfl) (Nat.le_refl 200)
